import Mathlib

/-
  Verification of the conventional-commit parser / serializer of git-cc.

  Text is modelled at the rune level as `List Char` (the Go code converts
  strings to `[]rune` before parsing, and the spec states that values are
  sequences of characters, not bytes).  Struct fields keep the Go names in
  lower case (`CC.Type` becomes `CC.type`, etc.).

  The generic combinator core (`LiteralRune`, `Tag`, `Regex`, `Empty`,
  `Sequence`, `Any`, `Opt`, `Many0`, `TakeUntil`, `Delimeted`, `Marked`)
  belongs to the repository but its source file is not available; each of
  those definitions is modelled from the specification's contracts (§4.1)
  and marked accordingly.  The grammar layer, `ParseHeader`, `ParseRest`,
  `splitOutFirstLine`, `ParseCC` (pkg/parser/parser.go) and the serializer
  `model.contextValue` / `model.value` (cmd/git-cc/main.go) are translated
  from the source.
-/

namespace GitCC

/-- A tagged parse result: `kind` names the grammar rule that produced it
(Go field `Type`), `value` is the consumed text (Go `Value`), `children`
the ordered sub-results (Go `Children`), `remaining` the unconsumed suffix
(Go `Remaining`). -/
structure ParseNode where
  kind : String
  value : List Char
  children : List ParseNode
  remaining : List Char

/-- A parser: given the input characters it either succeeds with a node or
fails (`none`); combinators never consume input on failure. -/
abbrev Parser := List Char → Option ParseNode

/-- A default node used when indexing a child list (Go indexing `Children[i]`
is only performed where the grammar guarantees the child exists). -/
def emptyNode : ParseNode := ⟨"", [], [], []⟩

/-- Modelled from the spec: `LiteralRune(c)` succeeds consuming exactly one
character equal to `c`; fails otherwise (including on empty input). -/
def LiteralRune (c : Char) : Parser := fun input =>
  match input with
  | [] => none
  | x :: rest => if x = c then some ⟨"LiteralRune", [c], [], rest⟩ else none

/-- Modelled from the spec: `Tag(s)` succeeds consuming the literal prefix
`s` if the input starts with it; fails otherwise. -/
def Tag (s : List Char) : Parser := fun input =>
  if s.isPrefixOf input then some ⟨"Tag", s, [], input.drop s.length⟩ else none

/-- Modelled from the spec: `Empty` is zero-width and succeeds iff the input
is exhausted. -/
def Empty : Parser := fun input =>
  match input with
  | [] => some ⟨"Empty", [], [], []⟩
  | _ :: _ => none

/-- Runs a list of parsers in order, each against the remainder left by the
previous one; yields the sub-results in order plus the final remainder. -/
def seqRun : List Parser → List Char → Option (List ParseNode × List Char)
  | [], input => some ([], input)
  | p :: ps, input =>
    match p input with
    | none => none
    | some n =>
      match seqRun ps n.remaining with
      | none => none
      | some (ns, rem) => some (n :: ns, rem)

/-- Modelled from the spec: `Sequence(p1…pn)` succeeds only if all succeed in
order; `children` are the sub-results, `value` the exact text consumed,
`remaining` what is left after the last. -/
def Sequence (ps : List Parser) : Parser := fun input =>
  match seqRun ps input with
  | none => none
  | some (ns, rem) => some ⟨"Sequence", input.take (input.length - rem.length), ns, rem⟩

/-- Modelled from the spec: `Any(p1…pn)` is ordered choice (PEG semantics):
it returns the first success, failing only if all alternatives fail. -/
def Any : List Parser → Parser
  | [] => fun _ => none
  | p :: ps => fun input =>
    match p input with
    | some n => some n
    | none => Any ps input

/-- Modelled from the spec: `Opt(p)` tries `p`; on success returns its
result; on failure returns a successful zero-width match leaving the input
untouched — `Opt` never fails. -/
def Opt (p : Parser) : Parser := fun input =>
  match p input with
  | some n => some n
  | none => some ⟨"Opt", [], [], input⟩

/-- Iterates a parser greedily, collecting successes, stopping at the first
failure.  The fuel bounds the number of iterations; `Many0` supplies
`input.length + 1` fuel, which is never exhausted as long as every success
of `p` consumes at least one character (true of every repeated parser in
this grammar). -/
def many0Run (p : Parser) : Nat → List Char → List ParseNode × List Char
  | 0, input => ([], input)
  | fuel + 1, input =>
    match p input with
    | none => ([], input)
    | some n =>
      let (ns, rem) := many0Run p fuel n.remaining
      (n :: ns, rem)

/-- Modelled from the spec: `Many0(p)` repeats `p` greedily, stops at the
first failure of `p`, and always succeeds (zero repetitions is valid),
collecting the successes into `children`. -/
def Many0 (p : Parser) : Parser := fun input =>
  let (ns, rem) := many0Run p (input.length + 1) input
  some ⟨"Many0", input.take (input.length - rem.length), ns, rem⟩

/-- Scans forward one character at a time; at each position (the end of
input included) tests `stop` as a non-consuming lookahead; the first
position where `stop` succeeds ends the match and everything strictly
before it is the consumed value; fails if `stop` never succeeds. -/
def takeUntilRun (stop : Parser) : List Char → Option (List Char × List Char)
  | [] =>
    match stop [] with
    | some _ => some ([], [])
    | none => none
  | c :: rest =>
    match stop (c :: rest) with
    | some _ => some ([], c :: rest)
    | none =>
      match takeUntilRun stop rest with
      | none => none
      | some (v, rem) => some (c :: v, rem)

/-- Modelled from the spec: `TakeUntil(stop)` consumes all characters
strictly before the first position where `stop` would succeed (tested as a
non-consuming lookahead, the end of input included); it fails if `stop`
never succeeds. -/
def TakeUntil (stop : Parser) : Parser := fun input =>
  match takeUntilRun stop input with
  | none => none
  | some (v, rem) => some ⟨"TakeUntil", v, [], rem⟩

/-- Modelled from the spec: `Delimeted(open, inner, close)` matches the
three parsers in sequence and returns `inner`'s result (not the delimiters)
with `remaining` set to what is left after `close`. -/
def Delimeted (po pi2 pc : Parser) : Parser := fun input =>
  match po input with
  | none => none
  | some o =>
    match pi2 o.remaining with
    | none => none
    | some i =>
      match pc i.remaining with
      | none => none
      | some c => some { i with remaining := c.remaining }

/-- Modelled from the spec: `Marked(kind)(p)` re-tags a successful node's
`kind`, preserving its value, children and remaining input. -/
def Marked (kind : String) (p : Parser) : Parser := fun input =>
  match p input with
  | none => none
  | some n => some { n with kind := kind }

/-- Go's `\w` character class (ASCII word characters) plus `-`. -/
def isWordDashChar (c : Char) : Bool := c.isAlphanum || c = '_' || c = '-'

/-- Modelled from the spec: `Regex(pattern)` consumes the longest prefix
matching the pattern anchored at the start, failing if there is no match at
position 0.  The only pattern used by the grammar is `[\w-]+` (`KebabWord`),
embedded here directly: the longest non-empty prefix of word/hyphen
characters. -/
def KebabWord : Parser := fun input =>
  let v := input.takeWhile isWordDashChar
  if v.isEmpty then none
  else some ⟨"Regex", v, [], input.drop v.length⟩

/- ------------------------------------------------------------------
   Grammar layer and entrypoints, translated from pkg/parser/parser.go.
   ------------------------------------------------------------------ -/

/-- `CCHeader` of parser.go (fields `Type`, `Scope`, `Description`,
`BreakingChange`, lower-cased). -/
structure CCHeader where
  type : List Char
  scope : List Char
  description : List Char
  breakingChange : Bool
deriving Repr, DecidableEq

/-- `CCRest` of parser.go. -/
structure CCRest where
  body : List Char
  footers : List (List Char)
  breakingChange : Bool
deriving Repr, DecidableEq

/-- `CC` of parser.go, the merged canonical record. -/
structure CC where
  type : List Char
  scope : List Char
  description : List Char
  body : List Char
  footers : List (List Char)
  breakingChange : Bool
deriving Repr, DecidableEq

/-- `var Newline = Marked("Newline")(Any(LiteralRune('\n'), Tag("\r\n")))` -/
def Newline : Parser := Marked "Newline" (Any [LiteralRune '\n', Tag "\r\n".data])

/-- `var DoubleNewline = Sequence(Newline, Newline)` -/
def DoubleNewline : Parser := Sequence [Newline, Newline]

/-- `var ColonSep = Tag(": ")` -/
def ColonSep : Parser := Tag ": ".data

/-- `var BreakingChangeBang = Marked("BreakingChangeBang")(Tag("!"))` -/
def BreakingChangeBang : Parser := Marked "BreakingChangeBang" (Tag "!".data)

/-- `var CommitType = Marked("CommitType")(TakeUntil(Any(BreakingChangeBang, Tag(":"), Tag("("))))` -/
def CommitType : Parser :=
  Marked "CommitType" (TakeUntil (Any [BreakingChangeBang, Tag ":".data, Tag "(".data]))

/-- `var Scope = Marked("Scope")(Delimeted(Tag("("), TakeUntil(Tag(")")), Tag(")")))` -/
def Scope : Parser :=
  Marked "Scope" (Delimeted (Tag "(".data) (TakeUntil (Tag ")".data)) (Tag ")".data))

/-- `var Context = Sequence(CommitType, Opt(Scope), Opt(BreakingChangeBang))` -/
def Context : Parser := Sequence [CommitType, Opt Scope, Opt BreakingChangeBang]

/-- `var BreakingChange = Any(Tag("BREAKING CHANGE"), Tag("BREAKING-CHANGE"))` -/
def BreakingChange : Parser := Any [Tag "BREAKING CHANGE".data, Tag "BREAKING-CHANGE".data]

/-- `var FooterToken = Any(Marked("BreakingChange")(Sequence(BreakingChange, ColonSep)), Sequence(KebabWord, Any(ColonSep, Tag(" #"))))` -/
def FooterToken : Parser :=
  Any [Marked "BreakingChange" (Sequence [BreakingChange, ColonSep]),
       Sequence [KebabWord, Any [ColonSep, Tag " #".data]]]

/-- `var Body = Sequence(Newline, TakeUntil(Any(Empty, FooterToken)))` -/
def Body : Parser := Sequence [Newline, TakeUntil (Any [Empty, FooterToken])]

/-- `var Footer = Sequence(FooterToken, TakeUntil(Any(Empty, FooterToken)))` -/
def Footer : Parser := Sequence [FooterToken, TakeUntil (Any [Empty, FooterToken])]

/-- `var Footers = Many0(Footer)` -/
def Footers : Parser := Many0 Footer

/-- The loop in `ParseHeader` filling a `CCHeader` from the children of the
`Context` node, dispatching on each child's tag. -/
def headerFromChildren (children : List ParseNode) : CCHeader :=
  children.foldl
    (fun h child =>
      if child.kind = "BreakingChangeBang" then { h with breakingChange := true }
      else if child.kind = "Scope" then { h with scope := child.value }
      else if child.kind = "CommitType" then { h with type := child.value }
      else h)
    ⟨[], [], [], false⟩

/-- `ParseHeader` of parser.go.  Go returns `(*CCHeader, error)`; the Bool
component is `true` exactly when the returned error is non-nil.  The header
record is returned even on error (zero-valued on a `Context` failure,
description-free on a description failure), exactly as in the source. -/
def ParseHeader (head : List Char) : CCHeader × Bool :=
  match Context head with
  | none => (⟨[], [], [], false⟩, true)
  | some ctx =>
    let header := headerFromChildren ctx.children
    match Sequence [ColonSep, TakeUntil Empty] ctx.remaining with
    | none => (header, true)
    | some desc => ({ header with description := (desc.children.getD 1 emptyNode).value }, false)

/-- `ParseRest` of parser.go; the Bool component is `true` exactly when the
returned error is non-nil. -/
def ParseRest (input : List Char) : CCRest × Bool :=
  match Body input with
  | none => (⟨[], [], false⟩, true)
  | some result =>
    let body := (result.children.getD 1 emptyNode).value
    match Footers result.remaining with
    | none => (⟨body, [], false⟩, true)
    | some fres =>
      let footers := fres.children.map ParseNode.value
      let breaking := fres.children.any fun f => (f.children.getD 0 emptyNode).kind = "BreakingChange"
      (⟨body, footers, breaking⟩, false)

/-- Go's `strings.SplitN(s, sep, 2)` restricted to a non-empty separator:
`some (a, b)` splits at the first occurrence of `sep`, `none` means `sep`
does not occur in `s`. -/
def splitOnce (sep : List Char) : List Char → Option (List Char × List Char)
  | [] => if sep.isPrefixOf ([] : List Char) then some ([], []) else none
  | c :: rest =>
    if sep.isPrefixOf (c :: rest) then some ([], (c :: rest).drop sep.length)
    else
      match splitOnce sep rest with
      | none => none
      | some (a, b) => some (c :: a, b)

/-- `splitOutFirstLine` of parser.go: split on the first `"\r\n"`; when
`"\r\n"` does not occur, split on the first `"\n"`; when neither occurs
return the whole input as the first line with an empty remainder. -/
def splitOutFirstLine (s : List Char) : List Char × List Char :=
  match splitOnce "\r\n".data s with
  | some (a, b) => (a, b)
  | none =>
    match splitOnce "\n".data s with
    | some (a, b) => (a, b)
    | none => (s, [])

/-- The cutset of `strings.TrimRight(otherLines, "\n\r\t ")`. -/
def isTrimChar (c : Char) : Bool := c = '\n' || c = '\r' || c = '\t' || c = ' '

/-- Go's `strings.TrimRight(s, "\n\r\t ")`: remove all trailing characters
from the cutset. -/
def trimRight (s : List Char) : List Char := (s.reverse.dropWhile isTrimChar).reverse

/-- Outcome of `ParseCC`.  Go returns `(*CC, error)` but also calls
`panic(...)` on header/rest parse failures; `panicked` models the panic
(process abort), `err` a returned non-nil error. -/
inductive CCResult where
  | ok (cc : CC)
  | err (msg : String)
  | panicked
deriving Repr, DecidableEq

/-- `ParseCC` of parser.go: split out the first line, fail with
"empty commit" if it is empty, parse the header — `panic` on error — copy
type/scope/breaking, trim the remainder, and when it is non-empty parse it
— `panic` on error — and merge body, footers and the breaking-change OR. -/
def ParseCC (fullCommit : List Char) : CCResult :=
  let firstLine := (splitOutFirstLine fullCommit).1
  let otherLines := (splitOutFirstLine fullCommit).2
  if firstLine.length = 0 then .err "empty commit"
  else
    let hr := ParseHeader firstLine
    if hr.2 then .panicked
    else
      let rest := trimRight otherLines
      if rest.length > 0 then
        let rr := ParseRest rest
        if rr.2 then .panicked
        else .ok ⟨hr.1.type, hr.1.scope, [], rr.1.body, rr.1.footers,
                  hr.1.breakingChange || rr.1.breakingChange⟩
      else .ok ⟨hr.1.type, hr.1.scope, [], [], [], hr.1.breakingChange⟩

end GitCC

namespace GitCC.model

/-- `model.contextValue` of cmd/git-cc/main.go: the commit type followed by
`(scope)` when the scope is non-empty.  The Go method reads
`m.commit[commitTypeIndex]` and `m.commit[scopeIndex]`; they are passed
here as arguments. -/
def contextValue (commitType scope : List Char) : List Char :=
  commitType ++ (if scope ≠ [] then "(".data ++ scope ++ ")".data else [])

/-- `model.value` of cmd/git-cc/main.go: the serializer.  It reads the
commit-type, scope, short-description and breaking-change entries of
`m.commit`, passed here as arguments: emit the context, `!` when the
breaking-change text is non-empty, `": "` and the description and a
newline, then — when the breaking-change text is non-empty — a blank line
and a `BREAKING CHANGE: ` footer with a trailing newline. -/
def value (commitType scope shortDescription breakingChange : List Char) : List Char :=
  contextValue commitType scope
    ++ (if breakingChange ≠ [] then "!".data else [])
    ++ ": ".data ++ shortDescription ++ "\n".data
    ++ (if breakingChange ≠ [] then
          "\n".data ++ "BREAKING CHANGE: ".data ++ breakingChange ++ "\n".data
        else [])

end GitCC.model

namespace GitCC

/- ------------------------------------------------------------------
   Helper predicates and lemmas.
   ------------------------------------------------------------------ -/

/-- The characters at which the `CommitType` scan stops. -/
def isCtxStop (c : Char) : Bool := decide (c = '!') || decide (c = ':') || decide (c = '(')

/-- Decidable substring containment, used to state where
`splitOutFirstLine` places its split. -/
def containsSub (sep : List Char) : List Char → Bool
  | [] => sep.isPrefixOf ([] : List Char)
  | c :: rest => sep.isPrefixOf (c :: rest) || containsSub sep rest

theorem takeWhile_append_of_all {p : Char → Bool} :
    ∀ (a b : List Char), (∀ c ∈ a, p c = true) →
      (a ++ b).takeWhile p = a ++ b.takeWhile p := by
  intro a b h
  induction a with
  | nil => simp
  | cons x a ih =>
    have hx : p x = true := h x (List.mem_cons_self x a)
    simp only [List.cons_append, List.takeWhile_cons, hx, if_true]
    rw [ih (fun c hc => h c (List.mem_cons_of_mem x hc))]

theorem dropWhile_append_of_all {p : Char → Bool} :
    ∀ (a b : List Char), (∀ c ∈ a, p c = true) →
      (a ++ b).dropWhile p = b.dropWhile p := by
  intro a b h
  induction a with
  | nil => simp
  | cons x a ih =>
    have hx : p x = true := h x (List.mem_cons_self x a)
    simp only [List.cons_append, List.dropWhile_cons, hx, if_true]
    exact ih (fun c hc => h c (List.mem_cons_of_mem x hc))

theorem takeWhile_of_all {p : Char → Bool} (a : List Char) (h : ∀ c ∈ a, p c = true) :
    a.takeWhile p = a := by
  have := takeWhile_append_of_all a [] h
  simpa using this

theorem dropWhile_of_all {p : Char → Bool} (a : List Char) (h : ∀ c ∈ a, p c = true) :
    a.dropWhile p = [] := by
  have := dropWhile_append_of_all a [] h
  simpa using this

theorem isPrefixOf_append_self (s r : List Char) : s.isPrefixOf (s ++ r) = true :=
  List.isPrefixOf_iff_prefix.mpr (List.prefix_append s r)

theorem tag_append (s r : List Char) : Tag s (s ++ r) = some ⟨"Tag", s, [], r⟩ := by
  simp [Tag, isPrefixOf_append_self, List.drop_left]

theorem tag_single_of_ne {a c : Char} (r : List Char) (h : c ≠ a) :
    Tag [a] (c :: r) = none := by
  have hpf : ([a].isPrefixOf (c :: r)) = false := by
    simp [List.isPrefixOf]
    exact Ne.symm h
  simp [Tag, hpf]

theorem tag_cons_nil (a : Char) (s : List Char) : Tag (a :: s) [] = none := by
  simp [Tag, List.isPrefixOf]

/-- A `TakeUntil` scan whose stop parser succeeds on a non-empty input iff
the head satisfies `q`, and succeeds on the exhausted input iff `z`:
the scan consumes up to the first character satisfying `q`, or the whole
input when `z` and no such character exists, and fails otherwise. -/
theorem takeUntilRun_head_stop (stop : Parser) (q : Char → Bool) (z : Bool)
    (hcons : ∀ c r, (stop (c :: r)).isSome = q c)
    (hnil : (stop []).isSome = z) :
    ∀ input : List Char,
      takeUntilRun stop input =
        if input.any q = true then
          some (input.takeWhile (fun c => !q c), input.dropWhile (fun c => !q c))
        else if z = true then some (input, []) else none := by
  intro input
  induction input with
  | nil =>
    cases hs : stop [] with
    | none =>
      have hz : z = false := by rw [← hnil, hs]; rfl
      simp [takeUntilRun, hs, hz]
    | some n =>
      have hz : z = true := by rw [← hnil, hs]; rfl
      simp [takeUntilRun, hs, hz]
  | cons c rest ih =>
    cases hs : stop (c :: rest) with
    | some n =>
      have hq : q c = true := by rw [← hcons c rest, hs]; rfl
      simp [takeUntilRun, hs, List.any_cons, hq, List.takeWhile_cons, List.dropWhile_cons]
    | none =>
      have hq : q c = false := by rw [← hcons c rest, hs]; rfl
      simp only [takeUntilRun, hs, ih]
      by_cases ha : rest.any q = true
      · simp [ha, hq, List.any_cons, List.takeWhile_cons, List.dropWhile_cons]
      · simp only [Bool.not_eq_true] at ha
        cases z with
        | true => simp [ha, hq, List.any_cons]
        | false => simp [ha, hq, List.any_cons]

theorem ctxStop_isSome (c : Char) (r : List Char) :
    (Any [BreakingChangeBang, Tag [':'], Tag ['(']] (c :: r)).isSome = isCtxStop c := by
  by_cases h1 : c = '!'
  · subst h1; simp [Any, BreakingChangeBang, Marked, Tag, List.isPrefixOf, isCtxStop]
  by_cases h2 : c = ':'
  · subst h2; simp [Any, BreakingChangeBang, Marked, Tag, List.isPrefixOf, isCtxStop,
      tag_single_of_ne r h1]
  by_cases h3 : c = '('
  · subst h3; simp [Any, BreakingChangeBang, Marked, Tag, List.isPrefixOf, isCtxStop,
      tag_single_of_ne r h1, tag_single_of_ne r h2]
  · have e1 : Tag "!".data (c :: r) = none := tag_single_of_ne r h1
    have e2 : Tag [':'] (c :: r) = none := tag_single_of_ne r h2
    have e3 : Tag ['('] (c :: r) = none := tag_single_of_ne r h3
    simp only [Any, BreakingChangeBang, Marked, e1, e2, e3]
    simp [isCtxStop, h1, h2, h3]

theorem ctxStop_nil :
    (Any [BreakingChangeBang, Tag [':'], Tag ['(']] ([] : List Char)).isSome = false := by
  rfl

theorem rparen_isSome (c : Char) (r : List Char) :
    (Tag [')'] (c :: r)).isSome = decide (c = ')') := by
  by_cases h : c = ')'
  · subst h; simp [Tag, List.isPrefixOf]
  · have e : Tag [')'] (c :: r) = none := tag_single_of_ne r h
    simp [e, h]

theorem rparen_nil : (Tag [')'] ([] : List Char)).isSome = false := by rfl

theorem empty_isSome_cons (c : Char) (r : List Char) :
    (Empty (c :: r)).isSome = (fun _ : Char => false) c := by rfl

theorem empty_isSome_nil : (Empty ([] : List Char)).isSome = true := by rfl

theorem bang_data : "!".data = ['!'] := rfl

theorem colon_data : ":".data = [':'] := rfl

theorem lparen_data : "(".data = ['('] := rfl

theorem rparen_data : ")".data = [')'] := rfl

theorem colonSep_data : ": ".data = [':', ' '] := rfl

theorem crlf_data : "\r\n".data = ['\r', '\n'] := rfl

theorem nl_data : "\n".data = ['\n'] := rfl

theorem opt_of_some {p : Parser} {input : List Char} {n : ParseNode}
    (h : p input = some n) : Opt p input = some n := by
  simp [Opt, h]

theorem opt_of_none {p : Parser} {input : List Char}
    (h : p input = none) : Opt p input = some ⟨"Opt", [], [], input⟩ := by
  simp [Opt, h]

theorem tag_cons (a : Char) (r : List Char) :
    Tag [a] (a :: r) = some ⟨"Tag", [a], [], r⟩ := by
  simpa using tag_append [a] r

/-- `TakeUntil` of the `CommitType` stop alternatives: consume up to the
first `!`, `:` or `(`, failing when the input has none of them. -/
theorem takeUntil_ctx (l : List Char) :
    TakeUntil (Any [BreakingChangeBang, Tag [':'], Tag ['(']]) l =
      if l.any isCtxStop = true then
        some ⟨"TakeUntil", l.takeWhile (fun c => !isCtxStop c), [],
              l.dropWhile (fun c => !isCtxStop c)⟩
      else none := by
  have h := takeUntilRun_head_stop _ isCtxStop false ctxStop_isSome ctxStop_nil l
  by_cases ha : l.any isCtxStop = true
  · simp [TakeUntil, h, ha]
  · simp [TakeUntil, h, ha]

theorem commitType_of_any (l : List Char) (h : l.any isCtxStop = true) :
    CommitType l = some ⟨"CommitType", l.takeWhile (fun c => !isCtxStop c), [],
                         l.dropWhile (fun c => !isCtxStop c)⟩ := by
  simp [CommitType, Marked, takeUntil_ctx l, h]

theorem commitType_take {t : List Char} {c : Char} (rest : List Char)
    (ht : ∀ x ∈ t, isCtxStop x = false) (hc : isCtxStop c = true) :
    CommitType (t ++ c :: rest) = some ⟨"CommitType", t, [], c :: rest⟩ := by
  have hany : (t ++ c :: rest).any isCtxStop = true := by
    simp [List.any_append, List.any_cons, hc]
  have htw : (t ++ c :: rest).takeWhile (fun x => !isCtxStop x) = t := by
    rw [takeWhile_append_of_all t (c :: rest) (fun x hx => by simp [ht x hx])]
    simp [List.takeWhile_cons, hc]
  have hdw : (t ++ c :: rest).dropWhile (fun x => !isCtxStop x) = c :: rest := by
    rw [dropWhile_append_of_all t (c :: rest) (fun x hx => by simp [ht x hx])]
    simp [List.dropWhile_cons, hc]
  rw [commitType_of_any _ hany, htw, hdw]

theorem takeUntil_rparen (l : List Char) :
    TakeUntil (Tag [')']) l =
      if l.any (fun c => decide (c = ')')) = true then
        some ⟨"TakeUntil", l.takeWhile (fun c => !decide (c = ')')), [],
              l.dropWhile (fun c => !decide (c = ')'))⟩
      else none := by
  have h := takeUntilRun_head_stop _ (fun c => decide (c = ')')) false rparen_isSome rparen_nil l
  by_cases ha : l.any (fun c => decide (c = ')')) = true
  · simp [TakeUntil, h, ha]
  · simp [TakeUntil, h, ha]

theorem takeUntil_empty (l : List Char) :
    TakeUntil Empty l = some ⟨"TakeUntil", l, [], []⟩ := by
  have h := takeUntilRun_head_stop Empty (fun _ => false) true empty_isSome_cons empty_isSome_nil l
  have ha : l.any (fun _ : Char => false) = false := by simp
  simp [TakeUntil, h, ha]

theorem scope_success {s : List Char} (R : List Char) (hs : ∀ x ∈ s, x ≠ ')') :
    Scope ('(' :: (s ++ ')' :: R)) = some ⟨"Scope", s, [], R⟩ := by
  have hopen : Tag ['('] ('(' :: (s ++ ')' :: R)) =
      some ⟨"Tag", ['('], [], s ++ ')' :: R⟩ := by
    simpa using tag_append ['('] (s ++ ')' :: R)
  have hany : (s ++ ')' :: R).any (fun c => decide (c = ')')) = true := by
    simp [List.any_append, List.any_cons]
  have htw : (s ++ ')' :: R).takeWhile (fun c => !decide (c = ')')) = s := by
    rw [takeWhile_append_of_all s (')' :: R) (fun x hx => by simp [hs x hx])]
    simp [List.takeWhile_cons]
  have hdw : (s ++ ')' :: R).dropWhile (fun c => !decide (c = ')')) = ')' :: R := by
    rw [dropWhile_append_of_all s (')' :: R) (fun x hx => by simp [hs x hx])]
    simp [List.dropWhile_cons]
  have hinner : TakeUntil (Tag [')']) (s ++ ')' :: R) =
      some ⟨"TakeUntil", s, [], ')' :: R⟩ := by
    rw [takeUntil_rparen, if_pos hany, htw, hdw]
  have hclose : Tag [')'] (')' :: R) = some ⟨"Tag", [')'], [], R⟩ := by
    simpa using tag_append [')'] R
  simp [Scope, Marked, Delimeted, hopen, hinner, hclose]

theorem scope_fail {c : Char} (R : List Char) (h : c ≠ '(') : Scope (c :: R) = none := by
  have e : Tag ['('] (c :: R) = none := tag_single_of_ne (a := '(') R h
  simp [Scope, Marked, Delimeted, e]

theorem bang_success (R : List Char) :
    BreakingChangeBang ('!' :: R) = some ⟨"BreakingChangeBang", ['!'], [], R⟩ := by
  have h : Tag ['!'] ('!' :: R) = some ⟨"Tag", ['!'], [], R⟩ := by
    simpa using tag_append ['!'] R
  simp [BreakingChangeBang, Marked, h]

theorem bang_fail {c : Char} (R : List Char) (h : c ≠ '!') :
    BreakingChangeBang (c :: R) = none := by
  have e : Tag ['!'] (c :: R) = none := tag_single_of_ne (a := '!') R h
  simp [BreakingChangeBang, Marked, e]

theorem colonSep_eval (d : List Char) :
    ColonSep (':' :: ' ' :: d) = some ⟨"Tag", [':', ' '], [], d⟩ := by
  simpa [ColonSep, colonSep_data] using tag_append [':', ' '] d

/-- The `": " + description` suffix parse of `ParseHeader` on a well-formed
remainder: the separator is consumed and `TakeUntil(Empty)` takes the whole
rest of the line as the description. -/
theorem descSeq_eval (d : List Char) :
    Sequence [ColonSep, TakeUntil Empty] (':' :: ' ' :: d) =
      some ⟨"Sequence", ':' :: ' ' :: d,
            [⟨"Tag", [':', ' '], [], d⟩, ⟨"TakeUntil", d, [], []⟩], []⟩ := by
  simp [Sequence, seqRun, colonSep_eval, takeUntil_empty]

/-- `ParseHeader` on `type(scope)!: description`. -/
theorem parseHeader_scope_bang {t s : List Char} (d : List Char)
    (ht : ∀ x ∈ t, isCtxStop x = false) (hs : ∀ x ∈ s, x ≠ ')') :
    ParseHeader (t ++ '(' :: (s ++ ')' :: '!' :: ':' :: ' ' :: d)) =
      (⟨t, s, d, true⟩, false) := by
  have hct := commitType_take (t := t) (c := '(')
    (s ++ ')' :: '!' :: ':' :: ' ' :: d) ht (by decide)
  have hsc := opt_of_some (scope_success ('!' :: ':' :: ' ' :: d) hs)
  have hbg := opt_of_some (bang_success (':' :: ' ' :: d))
  simp [ParseHeader, Context, Sequence, seqRun, hct, hsc, hbg,
        headerFromChildren, colonSep_eval, takeUntil_empty]

/-- `ParseHeader` on `type(scope): description`. -/
theorem parseHeader_scope_nobang {t s : List Char} (d : List Char)
    (ht : ∀ x ∈ t, isCtxStop x = false) (hs : ∀ x ∈ s, x ≠ ')') :
    ParseHeader (t ++ '(' :: (s ++ ')' :: ':' :: ' ' :: d)) =
      (⟨t, s, d, false⟩, false) := by
  have hct := commitType_take (t := t) (c := '(')
    (s ++ ')' :: ':' :: ' ' :: d) ht (by decide)
  have hsc := opt_of_some (scope_success (':' :: ' ' :: d) hs)
  have hbg := opt_of_none (bang_fail (c := ':') (' ' :: d) (by decide))
  simp [ParseHeader, Context, Sequence, seqRun, hct, hsc, hbg,
        headerFromChildren, colonSep_eval, takeUntil_empty]

/-- `ParseHeader` on `type!: description`. -/
theorem parseHeader_noscope_bang {t : List Char} (d : List Char)
    (ht : ∀ x ∈ t, isCtxStop x = false) :
    ParseHeader (t ++ '!' :: ':' :: ' ' :: d) = (⟨t, [], d, true⟩, false) := by
  have hct := commitType_take (t := t) (c := '!') (':' :: ' ' :: d) ht (by decide)
  have hsc := opt_of_none (scope_fail (c := '!') (':' :: ' ' :: d) (by decide))
  have hbg := opt_of_some (bang_success (':' :: ' ' :: d))
  simp [ParseHeader, Context, Sequence, seqRun, hct, hsc, hbg,
        headerFromChildren, colonSep_eval, takeUntil_empty]

/-- `ParseHeader` on `type: description`. -/
theorem parseHeader_plain {t : List Char} (d : List Char)
    (ht : ∀ x ∈ t, isCtxStop x = false) :
    ParseHeader (t ++ ':' :: ' ' :: d) = (⟨t, [], d, false⟩, false) := by
  have hct := commitType_take (t := t) (c := ':') (' ' :: d) ht (by decide)
  have hsc := opt_of_none (scope_fail (c := ':') (' ' :: d) (by decide))
  have hbg := opt_of_none (bang_fail (c := ':') (' ' :: d) (by decide))
  simp [ParseHeader, Context, Sequence, seqRun, hct, hsc, hbg,
        headerFromChildren, colonSep_eval, takeUntil_empty]

theorem no_nl_append {A B : List Char} (hA : ∀ c ∈ A, c ≠ '\n') (hB : ∀ c ∈ B, c ≠ '\n') :
    ∀ c ∈ A ++ B, c ≠ '\n' := by
  intro c hc
  rcases List.mem_append.mp hc with h | h
  · exact hA c h
  · exact hB c h

theorem no_nl_cons {x : Char} {B : List Char} (hx : x ≠ '\n') (hB : ∀ c ∈ B, c ≠ '\n') :
    ∀ c ∈ x :: B, c ≠ '\n' := by
  intro c hc
  rcases List.mem_cons.mp hc with rfl | h
  · exact hx
  · exact hB c h

/-- Extracting the first line (the text strictly before the first newline)
of a string that is a newline-free `L` followed by a newline. -/
theorem takeWhile_not_nl {L : List Char} (tail : List Char) (hL : ∀ c ∈ L, c ≠ '\n') :
    (L ++ '\n' :: tail).takeWhile (fun c => !decide (c = '\n')) = L := by
  rw [takeWhile_append_of_all L _ (fun c hc => by simp [hL c hc])]
  simp [List.takeWhile_cons]

/-- Unconditional shape of every successful `ParseCC` result: the
breaking-change flag is the OR of the header flag and the rest flag, and
the description field is never populated. -/
theorem parseCC_ok_shape {input : List Char} {cc : CC} (h : ParseCC input = .ok cc) :
    cc.breakingChange = ((ParseHeader (splitOutFirstLine input).1).1.breakingChange
      || (ParseRest (trimRight (splitOutFirstLine input).2)).1.breakingChange)
    ∧ cc.description = [] := by
  simp only [ParseCC] at h
  split_ifs at h with hA hB hC hD
  all_goals cases h
  · exact ⟨rfl, rfl⟩
  · have hnil : trimRight (splitOutFirstLine input).2 = [] := by
      rw [← List.length_eq_zero]
      omega
    refine ⟨?_, rfl⟩
    rw [hnil]
    have hfalse : (ParseRest ([] : List Char)).1.breakingChange = false := rfl
    rw [hfalse, Bool.or_false]

theorem isPrefixOf_nil_of_ne {sep : List Char} (h : sep ≠ []) :
    sep.isPrefixOf ([] : List Char) = false := by
  cases sep with
  | nil => exact absurd rfl h
  | cons a s => rfl

theorem eq_append_of_isPrefixOf {sep l : List Char} (h : sep.isPrefixOf l = true) :
    l = sep ++ l.drop sep.length := by
  obtain ⟨r, rfl⟩ := List.isPrefixOf_iff_prefix.mp h
  simp [List.drop_left]

theorem isPrefixOf_append_of_isPrefixOf {sep a : List Char} (u : List Char)
    (h : sep.isPrefixOf a = true) : sep.isPrefixOf (a ++ u) = true :=
  List.isPrefixOf_iff_prefix.mpr
    ((List.isPrefixOf_iff_prefix.mp h).trans (List.prefix_append a u))

/-- `splitOnce` succeeds exactly on the inputs that contain the separator. -/
theorem splitOnce_isSome (sep : List Char) :
    ∀ s, (splitOnce sep s).isSome = containsSub sep s := by
  intro s
  induction s with
  | nil =>
    simp only [splitOnce, containsSub]
    cases h : sep.isPrefixOf ([] : List Char) <;> simp [h]
  | cons c rest ih =>
    simp only [splitOnce, containsSub]
    cases h : sep.isPrefixOf (c :: rest)
    · simp only [Bool.false_eq_true, if_false, Bool.false_or]
      cases hsp : splitOnce sep rest with
      | none => rw [hsp] at ih; simpa using ih
      | some ab => rw [hsp] at ih; obtain ⟨a, b⟩ := ab; simpa using ih
    · simp

/-- Where `splitOnce` splits: the input decomposes around the first
occurrence of the separator, and the separator does not occur in the part
before the split. -/
theorem splitOnce_eq {sep : List Char} (hne : sep ≠ []) :
    ∀ {s a b : List Char}, splitOnce sep s = some (a, b) →
      s = a ++ sep ++ b ∧ containsSub sep a = false := by
  intro s
  induction s with
  | nil =>
    intro a b h
    rw [splitOnce, if_neg (by simp [isPrefixOf_nil_of_ne hne])] at h
    cases h
  | cons c rest ih =>
    intro a b h
    rw [splitOnce] at h
    by_cases hp : sep.isPrefixOf (c :: rest) = true
    · rw [if_pos hp] at h
      simp only [Option.some.injEq, Prod.mk.injEq] at h
      obtain ⟨rfl, rfl⟩ := h
      refine ⟨?_, by simp [containsSub, isPrefixOf_nil_of_ne hne]⟩
      simpa using eq_append_of_isPrefixOf hp
    · rw [if_neg hp] at h
      cases hsp : splitOnce sep rest with
      | none => rw [hsp] at h; cases h
      | some ab =>
        obtain ⟨a', b'⟩ := ab
        rw [hsp] at h
        simp only [Option.some.injEq, Prod.mk.injEq] at h
        obtain ⟨rfl, rfl⟩ := h
        obtain ⟨hs, hc⟩ := ih hsp
        subst hs
        refine ⟨by simp, ?_⟩
        rw [containsSub, hc, Bool.or_false]
        cases hpre : sep.isPrefixOf (c :: a') with
        | false => rfl
        | true =>
          exfalso
          apply hp
          have h2 := isPrefixOf_append_of_isPrefixOf (sep ++ b') hpre
          simpa [List.append_assoc] using h2

theorem mem_of_containsSub_single {c : Char} :
    ∀ {l : List Char}, containsSub [c] l = false → c ∉ l := by
  intro l
  induction l with
  | nil => intro _ h; simp at h
  | cons x rest ih =>
    intro h hmem
    rw [containsSub] at h
    rcases Bool.or_eq_false_iff.mp h with ⟨h1, h2⟩
    rcases List.mem_cons.mp hmem with rfl | hmem
    · simp [List.isPrefixOf] at h1
    · exact ih h2 hmem

/- ------------------------------------------------------------------
   Claim theorems.
   ------------------------------------------------------------------ -/

/-- Claim C1 (amended): for every type `t` containing none of `!`, `:`, `(`
and containing no newline, every scope `s` containing no `)` and no
newline, every breaking-change text `bc` (the boolean flag of the claim is
`bc` being non-empty), and every description `d` containing no newline,
serializing with `model.value` and then parsing the first line of that
output (the text strictly before the first `'\n'`) with `ParseHeader`
recovers exactly the type `t`, the scope `s`, the breaking-change flag and
the description `d`, with a nil error.  (The original claim did not
exclude newlines from `t` and `s`; see the counterexample.) -/
theorem claim_C1_header_round_trip (t s d bc : List Char)
    (ht : ∀ c ∈ t, isCtxStop c = false ∧ c ≠ '\n')
    (hs : ∀ c ∈ s, c ≠ ')' ∧ c ≠ '\n')
    (hd : ∀ c ∈ d, c ≠ '\n') :
    ParseHeader ((model.value t s d bc).takeWhile (fun c => !decide (c = '\n')))
      = (⟨t, s, d, !bc.isEmpty⟩, false) := by
  have ht1 : ∀ x ∈ t, isCtxStop x = false := fun x hx => (ht x hx).1
  have htn : ∀ c ∈ t, c ≠ '\n' := fun x hx => (ht x hx).2
  have hsn : ∀ c ∈ s, c ≠ '\n' := fun x hx => (hs x hx).2
  have hsp : ∀ x ∈ s, x ≠ ')' := fun x hx => (hs x hx).1
  cases s with
  | nil =>
    cases bc with
    | nil =>
      have hval : model.value t [] d [] = (t ++ ':' :: ' ' :: d) ++ '\n' :: [] := by
        simp [model.value, model.contextValue]
      have hmem : ∀ c ∈ t ++ ':' :: ' ' :: d, c ≠ '\n' :=
        no_nl_append htn (no_nl_cons (by decide) (no_nl_cons (by decide) hd))
      rw [hval, takeWhile_not_nl _ hmem, parseHeader_plain d ht1]
      rfl
    | cons b bcr =>
      have hval : model.value t [] d (b :: bcr) =
          (t ++ '!' :: ':' :: ' ' :: d) ++
            '\n' :: ('\n' :: ("BREAKING CHANGE: ".data ++ ((b :: bcr) ++ ['\n']))) := by
        simp [model.value, model.contextValue]
      have hmem : ∀ c ∈ t ++ '!' :: ':' :: ' ' :: d, c ≠ '\n' :=
        no_nl_append htn (no_nl_cons (by decide) (no_nl_cons (by decide)
          (no_nl_cons (by decide) hd)))
      rw [hval, takeWhile_not_nl _ hmem, parseHeader_noscope_bang d ht1]
      rfl
  | cons a sr =>
    cases bc with
    | nil =>
      have hval : model.value t (a :: sr) d [] =
          (t ++ '(' :: ((a :: sr) ++ ')' :: ':' :: ' ' :: d)) ++ '\n' :: [] := by
        simp [model.value, model.contextValue]
      have hmem : ∀ c ∈ t ++ '(' :: ((a :: sr) ++ ')' :: ':' :: ' ' :: d), c ≠ '\n' :=
        no_nl_append htn (no_nl_cons (by decide)
          (no_nl_append hsn (no_nl_cons (by decide) (no_nl_cons (by decide)
            (no_nl_cons (by decide) hd)))))
      rw [hval, takeWhile_not_nl _ hmem, parseHeader_scope_nobang d ht1 hsp]
      rfl
    | cons b bcr =>
      have hval : model.value t (a :: sr) d (b :: bcr) =
          (t ++ '(' :: ((a :: sr) ++ ')' :: '!' :: ':' :: ' ' :: d)) ++
            '\n' :: ('\n' :: ("BREAKING CHANGE: ".data ++ ((b :: bcr) ++ ['\n']))) := by
        simp [model.value, model.contextValue]
      have hmem : ∀ c ∈ t ++ '(' :: ((a :: sr) ++ ')' :: '!' :: ':' :: ' ' :: d), c ≠ '\n' :=
        no_nl_append htn (no_nl_cons (by decide)
          (no_nl_append hsn (no_nl_cons (by decide) (no_nl_cons (by decide)
            (no_nl_cons (by decide) (no_nl_cons (by decide) hd))))))
      rw [hval, takeWhile_not_nl _ hmem, parseHeader_scope_bang d ht1 hsp]
      rfl

/-- Claim C1 witness: the round trip at the concrete record
`("feat", "ui", breaking, "x y")`. -/
theorem claim_C1_witness :
    ParseHeader ((model.value "feat".data "ui".data "x y".data "z".data).takeWhile
        (fun c => !decide (c = '\n')))
      = (⟨"feat".data, "ui".data, "x y".data, true⟩, false) := by
  have h := claim_C1_header_round_trip "feat".data "ui".data "x y".data "z".data
    (by decide) (by decide) (by decide)
  simpa using h

/-- Claim C1 counterexample: the claim as stated quantifies over types
containing newlines.  For `t = "a\nb"`, `s = ""`, `b = false`, `d = "x"`
the serialized header is `"a\nb: x\n"`, whose first line is just `"a"`;
`ParseHeader` then fails (non-nil error) and returns an empty type rather
than recovering `t`. -/
theorem claim_C1_counterexample :
    (ParseHeader ((model.value "a\nb".data [] "x".data []).takeWhile
        (fun c => !decide (c = '\n')))).2 = true ∧
    (ParseHeader ((model.value "a\nb".data [] "x".data []).takeWhile
        (fun c => !decide (c = '\n')))).1.type ≠ "a\nb".data := by
  decide

/-- Claim C2: on `"feat(parser)!: support scopes\n\nBREAKING CHANGE: old
API removed\n"` `ParseCC` succeeds with type `feat`, scope `parser`,
breaking-change true, empty body and the single breaking-change footer —
but the description field of the result is empty, not `"support scopes"`
as the claim states: `ParseCC` never copies the parsed description into
the returned record. -/
theorem claim_C2_concrete_scenario :
    ParseCC "feat(parser)!: support scopes\n\nBREAKING CHANGE: old API removed\n".data =
      .ok ⟨"feat".data, "parser".data, [], [],
           ["BREAKING CHANGE: old API removed".data], true⟩ := by
  decide

/-- Claim C3: for every input on which `ParseCC` succeeds, the
breaking-change flag of the result is the logical OR of the header flag
and the rest flag; concretely, a header without `!` but with a
`BREAKING CHANGE:` footer yields `true`, and a header with `!` and no
footers yields `true`. -/
theorem claim_C3_breaking_or :
    (∀ (input : List Char) (cc : CC), ParseCC input = .ok cc →
        cc.breakingChange = ((ParseHeader (splitOutFirstLine input).1).1.breakingChange
          || (ParseRest (trimRight (splitOutFirstLine input).2)).1.breakingChange)) ∧
    ParseCC "fix: x\n\nBREAKING CHANGE: removes X".data =
      .ok ⟨"fix".data, [], [], [], ["BREAKING CHANGE: removes X".data], true⟩ ∧
    ParseCC "fix!: x".data = .ok ⟨"fix".data, [], [], [], [], true⟩ := by
  refine ⟨fun input cc h => (parseCC_ok_shape h).1, by decide, by decide⟩

/-- Claim C3 witness: the OR invariant instantiated on `"fix!: x"`. -/
theorem claim_C3_witness :
    (⟨"fix".data, [], [], [], [], true⟩ : CC).breakingChange =
      ((ParseHeader (splitOutFirstLine "fix!: x".data).1).1.breakingChange
        || (ParseRest (trimRight (splitOutFirstLine "fix!: x".data).2)).1.breakingChange) :=
  claim_C3_breaking_or.1 "fix!: x".data ⟨"fix".data, [], [], [], [], true⟩ (by decide)

/-- Claim C4: the claim says `ParseCC` never aborts the process when a
grammar rule fails to match, but the code calls `panic` on a header or
body/footer parse failure: on input `"x"` (no `": "` separator) the header
grammar fails and `ParseCC` panics, and on `"feat: a\nb"` the body grammar
fails (no leading newline after trimming) and `ParseCC` panics. -/
theorem claim_C4_panics :
    ParseCC "x".data = .panicked ∧ ParseCC "feat: a\nb".data = .panicked := by
  constructor <;> decide

/-- Claim C5: for every input on which `ParseCC` returns without error,
the description field of the returned record is empty: `ParseCC` copies
type, scope and breaking-change from the parsed header but never its
description. -/
theorem claim_C5_description_empty :
    ∀ (input : List Char) (cc : CC), ParseCC input = .ok cc → cc.description = [] :=
  fun _ _ h => (parseCC_ok_shape h).2

/-- Claim C5 witness: instantiated on `"fix: y"`. -/
theorem claim_C5_witness : (⟨"fix".data, [], [], [], [], false⟩ : CC).description = [] :=
  claim_C5_description_empty "fix: y".data ⟨"fix".data, [], [], [], [], false⟩ (by decide)

/-- Claim C6 (amended): `splitOutFirstLine` splits at the first `"\r\n"`
occurring anywhere in the input when there is one, and otherwise at the
first `"\n"`; consequently the first line is the text strictly before the
first newline — and in particular newline-free — whenever the input
contains no `"\r\n"`, but when a lone `"\n"` precedes the first `"\r\n"`
the first line extends to the `"\r\n"` and contains that newline. -/
theorem claim_C6_split_characterization : ∀ s : List Char,
    (containsSub "\r\n".data s = false →
        splitOutFirstLine s =
          (s.takeWhile (fun c => !decide (c = '\n')),
           (s.dropWhile (fun c => !decide (c = '\n'))).drop 1) ∧
        '\n' ∉ (splitOutFirstLine s).1) ∧
    (containsSub "\r\n".data s = true →
        ∃ a b, splitOutFirstLine s = (a, b) ∧ s = a ++ '\r' :: '\n' :: b ∧
               containsSub "\r\n".data a = false) := by
  intro s
  constructor
  · intro hno
    have hcr : splitOnce "\r\n".data s = none := by
      have hi := splitOnce_isSome "\r\n".data s
      rw [hno] at hi
      exact Option.not_isSome_iff_eq_none.mp (by simp [hi])
    have main : splitOutFirstLine s =
        (s.takeWhile (fun c => !decide (c = '\n')),
         (s.dropWhile (fun c => !decide (c = '\n'))).drop 1) := by
      rw [splitOutFirstLine, hcr]
      cases hnl : splitOnce "\n".data s with
      | none =>
        have hnmem : '\n' ∉ s := by
          have hi := splitOnce_isSome "\n".data s
          rw [hnl] at hi
          exact mem_of_containsSub_single (l := s) (by simpa using hi.symm)
        have htw : s.takeWhile (fun c => !decide (c = '\n')) = s :=
          takeWhile_of_all s (fun c hc => by
            have hne : c ≠ '\n' := fun he => hnmem (he ▸ hc)
            simp [hne])
        have hdw : s.dropWhile (fun c => !decide (c = '\n')) = [] :=
          dropWhile_of_all s (fun c hc => by
            have hne : c ≠ '\n' := fun he => hnmem (he ▸ hc)
            simp [hne])
        rw [htw, hdw]
        rfl
      | some ab =>
        obtain ⟨a, b⟩ := ab
        obtain ⟨hdecomp, hnotin⟩ := splitOnce_eq (by decide) hnl
        have hmem : '\n' ∉ a := mem_of_containsSub_single (by simpa using hnotin)
        have hs' : s = a ++ '\n' :: b := by simpa using hdecomp
        have htw := takeWhile_not_nl (L := a) b (fun c hc => fun he => hmem (he ▸ hc))
        have hdw : (a ++ '\n' :: b).dropWhile (fun c => !decide (c = '\n')) = '\n' :: b := by
          rw [dropWhile_append_of_all a _ (fun c hc => by
            have hne : c ≠ '\n' := fun he => hmem (he ▸ hc)
            simp [hne])]
          simp [List.dropWhile_cons]
        rw [hs', htw, hdw]
        rfl
    refine ⟨main, ?_⟩
    rw [main]
    intro hcontra
    have := List.mem_takeWhile_imp hcontra
    simp at this
  · intro hyes
    have hsome : (splitOnce "\r\n".data s).isSome = true := by
      rw [splitOnce_isSome, hyes]
    obtain ⟨ab, hab⟩ := Option.isSome_iff_exists.mp hsome
    obtain ⟨a, b⟩ := ab
    obtain ⟨hdecomp, hnotin⟩ := splitOnce_eq (by decide) hab
    refine ⟨a, b, ?_, by simpa using hdecomp, hnotin⟩
    rw [splitOutFirstLine, hab]

/-- Claim C6 witness: on `"ab\ncd"` (no `"\r\n"`) the split is at the
first newline and the first line is newline-free. -/
theorem claim_C6_witness :
    splitOutFirstLine "ab\ncd".data = ("ab".data, "cd".data) ∧
    '\n' ∉ (splitOutFirstLine "ab\ncd".data).1 := by
  have h := (claim_C6_split_characterization "ab\ncd".data).1 (by decide)
  refine ⟨?_, h.2⟩
  rw [h.1]
  decide

/-- Claim C6 counterexample: on `"a\nb\r\nc"` the split is at the later
`"\r\n"`, so the first line is `"a\nb"` — not the text strictly before
the first newline, and it contains a newline. -/
theorem claim_C6_counterexample :
    splitOutFirstLine "a\nb\r\nc".data = ("a\nb".data, "c".data) ∧
    '\n' ∈ (splitOutFirstLine "a\nb\r\nc".data).1 := by
  decide

/-- Claim C7: `CommitType` consumes exactly the text strictly before the
first occurrence of `!`, `:` or `(` in its input (leaving that character
unconsumed); on `"feat(parser): x"` it yields `"feat"` stopping at `(`,
and on `"feat!: x"` it yields `"feat"` stopping at `!`. -/
theorem claim_C7_commitType_stops :
    (∀ l : List Char, l.any isCtxStop = true →
        CommitType l = some ⟨"CommitType", l.takeWhile (fun c => !isCtxStop c), [],
                             l.dropWhile (fun c => !isCtxStop c)⟩) ∧
    CommitType "feat(parser): x".data =
      some ⟨"CommitType", "feat".data, [], "(parser): x".data⟩ ∧
    CommitType "feat!: x".data = some ⟨"CommitType", "feat".data, [], "!: x".data⟩ :=
  ⟨commitType_of_any, rfl, rfl⟩

/-- Claim C7 witness: the general statement instantiated on `"a:b"`. -/
theorem claim_C7_witness :
    CommitType "a:b".data = some ⟨"CommitType",
      ("a:b".data).takeWhile (fun c => !isCtxStop c), [],
      ("a:b".data).dropWhile (fun c => !isCtxStop c)⟩ :=
  claim_C7_commitType_stops.1 "a:b".data (by decide)

/-- Claim C8: scope is optional: `ParseHeader "fix: bug"` succeeds with an
empty scope, and `ParseHeader "fix(core): bug"` succeeds with scope
`core` (the text inside the parentheses). -/
theorem claim_C8_scope_optional :
    ParseHeader "fix: bug".data = (⟨"fix".data, [], "bug".data, false⟩, false) ∧
    ParseHeader "fix(core): bug".data =
      (⟨"fix".data, "core".data, "bug".data, false⟩, false) := by
  constructor <;> decide

/-- Claim C9: parsing the empty string fails with the "empty commit"
error, and every input whose first line is empty is rejected with that
same error. -/
theorem claim_C9_empty_commit :
    ParseCC "".data = .err "empty commit" ∧
    ∀ s : List Char, (splitOutFirstLine s).1 = [] → ParseCC s = .err "empty commit" := by
  refine ⟨rfl, fun s h => ?_⟩
  simp [ParseCC, h]

/-- Claim C9 witness: `"\nabc"` has an empty first line and is rejected. -/
theorem claim_C9_witness : ParseCC "\nabc".data = .err "empty commit" :=
  claim_C9_empty_commit.2 "\nabc".data (by decide)

/-- Claim C10: in the serializer the `!` marker and the
`BREAKING CHANGE: ` footer are coupled: both branches are driven by the
same breaking-change text being non-empty, so the output either carries
the `!` marker and ends with a blank line plus the footer, or carries
neither. -/
theorem claim_C10_bang_footer_coupled : ∀ t s d bc : List Char,
    (bc ≠ [] ∧ model.value t s d bc =
        model.contextValue t s ++ '!' :: ':' :: ' ' ::
          (d ++ '\n' :: '\n' :: ("BREAKING CHANGE: ".data ++ (bc ++ ['\n'])))) ∨
    (bc = [] ∧ model.value t s d bc =
        model.contextValue t s ++ ':' :: ' ' :: (d ++ ['\n'])) := by
  intro t s d bc
  cases bc with
  | nil =>
    right
    refine ⟨rfl, ?_⟩
    simp [model.value]
  | cons b r =>
    left
    refine ⟨by simp, ?_⟩
    simp [model.value]

end GitCC
